import Mathlib

/-!
Shallow embedding of the mlib terminal media browser (src/main.rs).

Strings from the Rust side are modelled as lists of characters, so that
every operation (prefix test, suffix test, lowercasing, substring removal)
is a structurally recursive, kernel-computable function.  Filesystem paths
are modelled as lists of components, with the empty list standing for the
root directory.  The filesystem itself is an oracle
point of view of the program: a function from a path to an optional list of
directory children, where a result of none models a failing read_dir call.
-/

namespace Mlib

/-- Character list of a Lean string literal, used to write concrete inputs. -/
def str (s : String) : List Char := s.data

/-- Embedding of Rust slice method starts_with on sequences:
first list is a leading segment of the second. -/
def isLeadOf {α : Type} [DecidableEq α] : List α → List α → Bool
  | [], _ => true
  | _ :: _, [] => false
  | a :: as, b :: bs => if a = b then isLeadOf as bs else false

/-- Embedding of Rust str method ends_with: first list is a trailing
segment of the second. -/
def isTailOf {α : Type} [DecidableEq α] (pat s : List α) : Bool :=
  isLeadOf pat.reverse s.reverse

/-- Embedding of Rust str method to_lowercase, applied characterwise. -/
def lower (s : List Char) : List Char := s.map Char.toLower

/-- Embedding of Rust String ordering (byte-lexicographic, which agrees
with codepoint-lexicographic order): less-or-equal test. -/
def lexLe : List Char → List Char → Bool
  | [], _ => true
  | _ :: _, [] => false
  | a :: as, b :: bs =>
    if a.toNat < b.toNat then true
    else if b.toNat < a.toNat then false
    else lexLe as bs

/-- Worker for removeAll.  The fuel argument only drives structural
recursion; it starts at the length of the scanned list, and every step
consumes at least one character, so the zero-fuel case is unreachable. -/
def removeAllGo (pat : List Char) : Nat → List Char → List Char
  | _, [] => []
  | 0, s => s
  | Nat.succ fuel, c :: cs =>
    if pat ≠ [] ∧ isLeadOf pat (c :: cs) = true then
      removeAllGo pat fuel (cs.drop (pat.length - 1))
    else c :: removeAllGo pat fuel cs

/-- Embedding of the Rust expression name.replace(pat, ""): remove every
non-overlapping occurrence of pat, scanning left to right. -/
def removeAll (pat s : List Char) : List Char := removeAllGo pat s.length s

/-- One directory child together with the watched flag, as built by the
update function in main.rs. -/
structure Entry where
  path : List (List Char)
  name : List Char
  is_file : Bool
  is_watched : Bool
deriving DecidableEq

/-- One raw directory child as produced by read_dir, before filtering. -/
structure Child where
  path : List (List Char)
  name : List Char
  is_file : Bool
deriving DecidableEq

/-- The mutable program state of main.rs. -/
structure State where
  selected : Int
  path : List (List Char)
  entries : List Entry
  show_hidden : Bool
  show_help : Bool
deriving DecidableEq

/-- The loaded configuration. -/
structure Config where
  media_dir : List (List Char)
  data_dir : List (List Char)
  player : List Char
  filetypes : List (List Char)
deriving DecidableEq

/-- The persisted history data: a set of path keys. -/
structure Data where
  history : Finset (List (List Char))
deriving DecidableEq

/-- Key normalization shared by the three history operations: embedding of
e.path.strip of the media root via unwrap_or, i.e. the path made relative
to config.media_dir when it lies under it, else used verbatim. -/
def normKey (cfg : Config) (p : List (List Char)) : List (List Char) :=
  if isLeadOf cfg.media_dir p then p.drop cfg.media_dir.length else p

/-- Embedding of hist_contains in main.rs. -/
def hist_contains (d : Data) (cfg : Config) (e : Entry) : Bool :=
  decide (normKey cfg e.path ∈ d.history)

/-- Embedding of hist_add in main.rs (the file rewrite is I/O and not
modelled; the membership change is). -/
def hist_add (d : Data) (cfg : Config) (e : Entry) : Data :=
  { history := insert (normKey cfg e.path) d.history }

/-- Embedding of hist_remove in main.rs. -/
def hist_remove (d : Data) (cfg : Config) (e : Entry) : Data :=
  { history := d.history.erase (normKey cfg e.path) }

/-- The reserved system directory name excluded by the filter. -/
def sviName : List Char := str "System Volume Information"

/-- Construction of one Entry from a raw child in the update loop,
including the watched lookup. -/
def mkEntry (d : Data) (cfg : Config) (c : Child) : Entry :=
  let e : Entry := { path := c.path, name := c.name, is_file := c.is_file, is_watched := false }
  { e with is_watched := hist_contains d cfg e }

/-- The filter condition of the update loop in main.rs:
show_hidden, or (name does not start with a dot, name is not the reserved
system name, and (not a file, or the name ends with a configured filter
suffix)). -/
def keepEntry (h : Bool) (cfg : Config) (e : Entry) : Bool :=
  h || (!(isLeadOf (str ".") e.name) && !(e.name = sviName : Bool) &&
        (!e.is_file || cfg.filetypes.any (fun s => isTailOf s e.name)))

/-- The sort comparator of main.rs: lowercased name, lexicographic. -/
def entryLe (a b : Entry) : Bool := lexLe (lower a.name) (lower b.name)

/-- The comparator as a decidable relation. -/
def entryRel (a b : Entry) : Prop := entryLe a b = true

instance : DecidableRel entryRel := fun a b => instDecidableEqBool (entryLe a b) true

/-- The stable sort of the update loop.  Rust sort_by is a stable sort, and
the output of a stable sort under a total transitive comparator is unique,
so stable insertion sort is extensionally the same function. -/
def sortEntries (l : List Entry) : List Entry := l.insertionSort entryRel

/-- The full entry recomputation of update: map, filter, stable sort. -/
def refreshEntries (ch : List Child) (h : Bool) (d : Data) (cfg : Config) : List Entry :=
  sortEntries (((ch.map (mkEntry d cfg))).filter (keepEntry h cfg))

/-- Embedding of update in main.rs.  The argument dir is the result of
read_dir on the current path: none models a failing read, in which case
update returns immediately and the state is left untouched.  Otherwise the
entries are rebuilt and the selection is re-clamped by floored modulo. -/
def update (dir : Option (List Child)) (s : State) (d : Data) (cfg : Config) : State :=
  match dir with
  | none => s
  | some ch =>
    let es := refreshEntries ch s.show_hidden d cfg
    let sel :=
      if s.selected < 0 ∨ s.selected ≥ (es.length : Int) then
        if 0 < es.length then Int.emod s.selected (es.length : Int) else s.selected
      else s.selected
    { s with entries := es, selected := sel }

/-- The display-name transform of draw in main.rs: when the filter is
active every configured suffix is removed from the rendered name; the
stored entry is not modified. -/
def displayName (h : Bool) (cfg : Config) (name : List Char) : List Char :=
  if h then name else cfg.filetypes.foldl (fun n s => removeAll s n) name

/-- The logical keyboard commands dispatched by input in main.rs. -/
inductive Command where
  | moveUp | moveDown | enterDir | leave | activate
  | toggleWatched | toggleHidden | toggleHelp
deriving DecidableEq

/-- A recorded spawn of the external player. -/
structure Spawn where
  player : List Char
  arg : List (List Char)
deriving DecidableEq

/-- Placeholder entry used to totalize the partial index access
entries[selected as usize] of the Rust code. -/
def defaultEntry : Entry := { path := [], name := [], is_file := false, is_watched := false }

/-- The entry denoted by entries[selected as usize] in the Rust handlers;
total here via a default, with the in-bounds question treated separately. -/
def selEnt (s : State) : Entry := s.entries.getD s.selected.toNat defaultEntry

/-- The filesystem oracle: read_dir as a function from a path to an
optional child list (none models a failing read). -/
abbrev FSys := List (List Char) → Option (List Child)

/-- Embedding of input in main.rs: one key event handler.  Returns the new
state and data, and the spawned player invocation if any. -/
def input (fs : FSys) (cmd : Command) (s : State) (cfg : Config) (d : Data) :
    State × Data × Option Spawn :=
  match cmd with
  | .moveUp => ({ s with selected := s.selected - 1 }, d, none)
  | .moveDown => ({ s with selected := s.selected + 1 }, d, none)
  | .enterDir =>
    if 0 < s.entries.length ∧ (selEnt s).is_file = false then
      if (fs (selEnt s).path).isSome then
        ({ s with path := (selEnt s).path, selected := 0 }, d, none)
      else (s, d, none)
    else (s, d, none)
  | .leave => ({ s with path := s.path.dropLast, selected := 0 }, d, none)
  | .activate =>
    if 0 < s.entries.length ∧ s.selected < (s.entries.length : Int) ∧ (selEnt s).is_file = true then
      (s, hist_add d cfg (selEnt s), some { player := cfg.player, arg := (selEnt s).path })
    else (s, d, none)
  | .toggleWatched =>
    if 0 < s.entries.length ∧ s.selected < (s.entries.length : Int) ∧ (selEnt s).is_file = true then
      if hist_contains d cfg (selEnt s) then (s, hist_remove d cfg (selEnt s), none)
      else (s, hist_add d cfg (selEnt s), none)
    else (s, d, none)
  | .toggleHidden => ({ s with show_hidden := !s.show_hidden }, d, none)
  | .toggleHelp => ({ s with show_help := !s.show_help }, d, none)

/-- One iteration of the main loop on a key event: input, then update
against the possibly changed current path. -/
def step (fs : FSys) (cfg : Config) (cmd : Command) (sd : State × Data) : State × Data :=
  let r := input fs cmd sd.1 cfg sd.2
  (update (fs r.1.path) r.1 r.2.1 cfg, r.2.1)

/-- A whole sequence of key events. -/
def runCmds (fs : FSys) (cfg : Config) (cmds : List Command) (sd : State × Data) : State × Data :=
  cmds.foldl (fun sd c => step fs cfg c sd) sd

/-- The in-bounds condition needed so that the index accesses
entries[selected as usize] in the d, e and f handlers of input cannot
panic when their guards pass. -/
def inputIndexSafe (s : State) : Prop :=
  0 < s.entries.length → 0 ≤ s.selected ∧ s.selected < (s.entries.length : Int)

/-! ### Concrete fixtures used for witnesses and counterexamples -/

/-- A child of the media directory. -/
def child (n : String) (f : Bool) : Child :=
  { path := [str "media", str n], name := str n, is_file := f }

/-- A small configuration with one filter suffix. -/
def exCfg : Config :=
  { media_dir := [str "media"], data_dir := [str "data"], player := str "mpv",
    filetypes := [str ".mkv"] }

/-- An empty history. -/
def exHist : Data := { history := {} }

/-- A fresh state rooted at the media directory. -/
def exState : State :=
  { selected := 0, path := [str "media"], entries := [], show_hidden := false,
    show_help := false }

/-- The children of the worked scenario of the specification. -/
def scenCh : List Child := [child "Show1" false, child "movie.mkv" true, child ".git" false]

/-- The children of the sort-stability example of the specification. -/
def sortCh : List Child := [child "b.mkv" true, child "A" false, child ".hidden" true]

/-- Two directories whose lowercased stored names sort in one order while
their stripped display names sort in the other. -/
def flipCh : List Child := [child "a.mkvz" false, child "ay" false]

/-- A filesystem with a single readable directory. -/
def exFS (ch : List Child) : FSys := fun p => if p = [str "media"] then some ch else none

/-- A filesystem on which every read fails. -/
def noFS : FSys := fun _ => none

/-! ### Order lemmas for the sort comparator -/

theorem lexLe_refl (l : List Char) : lexLe l l = true := by
  induction l with
  | nil => rfl
  | cons a as ih => simp [lexLe, ih]

theorem lexLe_total : ∀ a b : List Char, lexLe a b = true ∨ lexLe b a = true
  | [], _ => Or.inl rfl
  | _ :: _, [] => Or.inr rfl
  | a :: as, b :: bs => by
    rcases Nat.lt_trichotomy a.toNat b.toNat with h | h | h
    · left; simp [lexLe, h]
    · rcases lexLe_total as bs with ih | ih
      · left; simp [lexLe, h, Nat.lt_irrefl, ih]
      · right; simp [lexLe, h.symm, Nat.lt_irrefl, ih]
    · right; simp [lexLe, h]

theorem lexLe_trans : ∀ a b c : List Char,
    lexLe a b = true → lexLe b c = true → lexLe a c = true
  | [], _, _, _, _ => rfl
  | _ :: _, [], _, h, _ => by simp [lexLe] at h
  | _ :: _, _ :: _, [], _, h => by simp [lexLe] at h
  | a :: as, b :: bs, c :: cs, hab, hbc => by
    simp only [lexLe] at hab hbc ⊢
    rcases Nat.lt_trichotomy a.toNat b.toNat with h1 | h1 | h1
    · rcases Nat.lt_trichotomy b.toNat c.toNat with h2 | h2 | h2
      · have h3 : a.toNat < c.toNat := by omega
        simp [h3]
      · have h3 : a.toNat < c.toNat := by omega
        simp [h3]
      · have h3 : ¬ b.toNat < c.toNat := by omega
        simp [h3, h2] at hbc
    · rcases Nat.lt_trichotomy b.toNat c.toNat with h2 | h2 | h2
      · have h3 : a.toNat < c.toNat := by omega
        simp [h3]
      · have h4 : ¬ a.toNat < b.toNat := by omega
        have h5 : ¬ b.toNat < a.toNat := by omega
        have h6 : ¬ b.toNat < c.toNat := by omega
        have h7 : ¬ c.toNat < b.toNat := by omega
        have h8 : ¬ a.toNat < c.toNat := by omega
        have h9 : ¬ c.toNat < a.toNat := by omega
        simp only [h4, h5, if_false] at hab
        simp only [h6, h7, if_false] at hbc
        simp only [h8, h9, if_false]
        exact lexLe_trans as bs cs hab hbc
      · have h3 : ¬ b.toNat < c.toNat := by omega
        simp [h3, h2] at hbc
    · have h3 : ¬ a.toNat < b.toNat := by omega
      simp [h3, h1] at hab

instance : IsTotal Entry entryRel :=
  ⟨fun a b => lexLe_total (lower a.name) (lower b.name)⟩

instance : IsTrans Entry entryRel :=
  ⟨fun _ _ _ hab hbc => lexLe_trans _ _ _ hab hbc⟩

/-! ### Structural lemmas about the refresh -/

theorem update_none (s : State) (d : Data) (cfg : Config) : update none s d cfg = s := rfl

theorem update_some_entries (ch : List Child) (s : State) (d : Data) (cfg : Config) :
    (update (some ch) s d cfg).entries = refreshEntries ch s.show_hidden d cfg := by
  simp [update]

theorem update_some_path (ch : List Child) (s : State) (d : Data) (cfg : Config) :
    (update (some ch) s d cfg).path = s.path := by
  simp [update]

theorem update_path (dir : Option (List Child)) (s : State) (d : Data) (cfg : Config) :
    (update dir s d cfg).path = s.path := by
  cases dir <;> simp [update]

theorem update_show_hidden (dir : Option (List Child)) (s : State) (d : Data) (cfg : Config) :
    (update dir s d cfg).show_hidden = s.show_hidden := by
  cases dir <;> simp [update]

/-- The re-clamp of update: with a readable directory, a non-empty entry
list forces the selection into bounds. -/
theorem update_some_sel_bounds (ch : List Child) (s : State) (d : Data) (cfg : Config)
    (hne : 0 < (update (some ch) s d cfg).entries.length) :
    0 ≤ (update (some ch) s d cfg).selected ∧
      (update (some ch) s d cfg).selected < ((update (some ch) s d cfg).entries.length : Int) := by
  have hlen : (update (some ch) s d cfg).entries.length
      = (refreshEntries ch s.show_hidden d cfg).length := by
    rw [update_some_entries]
  rw [hlen] at hne ⊢
  have hlen0 : (0 : Int) < ((refreshEntries ch s.show_hidden d cfg).length : Int) := by
    exact_mod_cast hne
  simp only [update]
  split
  · exact ⟨Int.emod_nonneg _ (by omega), Int.emod_lt_of_pos _ hlen0⟩
  · rename_i hcond
    push_neg at hcond
    exact ⟨hcond.1, hcond.2⟩

/-- The re-clamp of update: with a readable but empty (once filtered)
directory, the selection is left untouched. -/
theorem update_some_sel_empty (ch : List Child) (s : State) (d : Data) (cfg : Config)
    (hz : (update (some ch) s d cfg).entries.length = 0) :
    (update (some ch) s d cfg).selected = s.selected := by
  have hlen : (refreshEntries ch s.show_hidden d cfg).length = 0 := by
    rw [update_some_entries] at hz; exact hz
  simp only [update]
  split
  · rw [if_neg (by omega)]
  · rfl

/-! ### Leading-segment characterization, used for key normalization -/

theorem isLeadOf_append {α : Type} [DecidableEq α] (a t : List α) :
    isLeadOf a (a ++ t) = true := by
  induction a with
  | nil => rfl
  | cons x xs ih => simp [isLeadOf, ih]

theorem exists_of_isLeadOf {α : Type} [DecidableEq α] :
    ∀ (a b : List α), isLeadOf a b = true → ∃ t, b = a ++ t
  | [], b, _ => ⟨b, rfl⟩
  | _ :: _, [], h => by simp [isLeadOf] at h
  | a :: as, b :: bs, h => by
    by_cases hab : a = b
    · subst hab
      simp only [isLeadOf, if_pos rfl] at h
      obtain ⟨t, ht⟩ := exists_of_isLeadOf as bs h
      exact ⟨t, by simp [ht]⟩
    · simp [isLeadOf, hab] at h

/-! ### Stability of the entry sort -/

/-- Pure stability statement: elements whose sort key agrees keep their
relative input order, phrased as a filter identity. -/
theorem sortEntries_filter_stable (l : List Entry) (p : Entry → Bool)
    (hp : ∀ a b : Entry, p a = true → p b = true → entryRel a b) :
    (sortEntries l).filter p = l.filter p := by
  have hpair : (l.filter p).Pairwise entryRel := by
    apply List.pairwise_of_forall_mem_list
    intro a ha b hb
    exact hp a b (List.of_mem_filter ha) (List.of_mem_filter hb)
  have hsub : List.Sublist (l.filter p) (sortEntries l) :=
    List.sublist_insertionSort hpair (List.filter_sublist l)
  have hsub2 : List.Sublist ((l.filter p).filter p) ((sortEntries l).filter p) := hsub.filter p
  have hself : (l.filter p).filter p = l.filter p := by
    apply List.filter_eq_self.mpr
    intro a ha
    exact List.of_mem_filter ha
  rw [hself] at hsub2
  have hperm : List.Perm ((sortEntries l).filter p) (l.filter p) :=
    (List.perm_insertionSort entryRel l).filter p
  exact (hsub2.eq_of_length hperm.length_eq.symm).symm

/-- The re-clamp of update never moves a selection of 0. -/
theorem update_sel_zero (dir : Option (List Child)) (s : State) (d : Data) (cfg : Config)
    (h0 : s.selected = 0) : (update dir s d cfg).selected = 0 := by
  cases dir with
  | none => simpa [update] using h0
  | some ch =>
    simp only [update, h0]
    split
    · rename_i hcond
      have hlen : (refreshEntries ch s.show_hidden d cfg).length = 0 := by omega
      rw [if_neg (by omega)]
    · rfl

/-! ### Lemmas about steps built from movement commands -/

theorem step_move_path (fs : FSys) (cfg : Config) (c : Command) (sd : State × Data)
    (hc : c = Command.moveUp ∨ c = Command.moveDown) :
    (step fs cfg c sd).1.path = sd.1.path := by
  rcases hc with h | h <;> subst h <;> simp [step, input, update_path]

theorem runCmds_move_path (fs : FSys) (cfg : Config) (cmds : List Command) (sd : State × Data)
    (hmv : ∀ c ∈ cmds, c = Command.moveUp ∨ c = Command.moveDown) :
    (runCmds fs cfg cmds sd).1.path = sd.1.path := by
  induction cmds generalizing sd with
  | nil => rfl
  | cons c cs ih =>
    have h1 : (step fs cfg c sd).1.path = sd.1.path :=
      step_move_path fs cfg c sd (hmv c (List.mem_cons_self c cs))
    have h2 := ih (step fs cfg c sd) (fun x hx => hmv x (List.mem_cons_of_mem c hx))
    calc (runCmds fs cfg (c :: cs) sd).1.path
        = (runCmds fs cfg cs (step fs cfg c sd)).1.path := rfl
      _ = (step fs cfg c sd).1.path := h2
      _ = sd.1.path := h1

/-- Floored modulo sends -1 to n - 1 for positive n. -/
theorem neg_one_emod (n : Int) (hn : 0 < n) : Int.emod (-1) n = n - 1 := by
  have h1 : (-1 : Int) + n * 1 = n - 1 := by ring
  calc Int.emod (-1) n = Int.emod ((-1) + n * 1) n := (Int.add_mul_emod_self_left (-1) n 1).symm
    _ = Int.emod (n - 1) n := by rw [h1]
    _ = n - 1 := Int.emod_eq_of_lt (by omega) (by omega)

/-! ### Claim theorems -/

/-- The selection produced by a successful refresh, written out. -/
theorem update_some_selected (ch : List Child) (s : State) (d : Data) (cfg : Config) :
    (update (some ch) s d cfg).selected =
      if s.selected < 0 ∨ s.selected ≥ ((refreshEntries ch s.show_hidden d cfg).length : Int) then
        if 0 < (refreshEntries ch s.show_hidden d cfg).length then
          Int.emod s.selected ((refreshEntries ch s.show_hidden d cfg).length : Int)
        else s.selected
      else s.selected := by
  simp [update]

/-- C2: for a refresh producing N > 0 entries, a MoveUp command issued
while the selection is 0 re-clamps the selection to N - 1, and a MoveDown
command issued while the selection is N - 1 re-clamps it to 0. -/
theorem wraparound_moves (fs : FSys) (cfg : Config) (d : Data) (s : State) (ch : List Child)
    (hfs : fs s.path = some ch)
    (hn : 0 < (refreshEntries ch s.show_hidden d cfg).length) :
    (s.selected = 0 →
      (step fs cfg Command.moveUp (s, d)).1.selected
        = ((refreshEntries ch s.show_hidden d cfg).length : Int) - 1)
    ∧ (s.selected = ((refreshEntries ch s.show_hidden d cfg).length : Int) - 1 →
      (step fs cfg Command.moveDown (s, d)).1.selected = 0) := by
  have hnz : (0 : Int) < ((refreshEntries ch s.show_hidden d cfg).length : Int) := by
    exact_mod_cast hn
  constructor
  · intro h0
    have hstep : (step fs cfg Command.moveUp (s, d)).1
        = update (some ch) { s with selected := s.selected - 1 } d cfg := by
      simp [step, input, hfs]
    rw [hstep, update_some_selected]
    dsimp only
    rw [if_pos (Or.inl (by omega)), if_pos hn, h0]
    show Int.emod (0 - 1) _ = _
    rw [show (0 - 1 : Int) = -1 from by omega]
    exact neg_one_emod _ hnz
  · intro h0
    have hstep : (step fs cfg Command.moveDown (s, d)).1
        = update (some ch) { s with selected := s.selected + 1 } d cfg := by
      simp [step, input, hfs]
    rw [hstep, update_some_selected]
    dsimp only
    rw [if_pos (Or.inr (by omega)), if_pos hn, h0]
    rw [show ((refreshEntries ch s.show_hidden d cfg).length : Int) - 1 + 1
        = ((refreshEntries ch s.show_hidden d cfg).length : Int) from by omega]
    exact Int.emod_self

/-- C2 witness: in the scenario directory with two visible entries, MoveUp
from index 0 wraps to index 1, and MoveDown from index 1 wraps to 0. -/
theorem wraparound_moves_witness :
    (step (exFS scenCh) exCfg Command.moveUp (exState, exHist)).1.selected
        = ((refreshEntries scenCh exState.show_hidden exHist exCfg).length : Int) - 1
    ∧ (step (exFS scenCh) exCfg Command.moveDown
        ({ exState with selected := 1 }, exHist)).1.selected = 0 := by
  constructor
  · exact (wraparound_moves (exFS scenCh) exCfg exHist exState scenCh (by decide)
      (by decide)).1 (by decide)
  · exact (wraparound_moves (exFS scenCh) exCfg exHist { exState with selected := 1 } scenCh
      (by decide) (by decide)).2 (by decide)

/-- C3 (amended): when the current path cannot be read, the refresh does
not raise an error and is a complete no-op on the state: the prior entries
and selection are left unchanged (stale), not cleared or replaced. -/
theorem refresh_unreadable_is_noop (s : State) (d : Data) (cfg : Config) :
    update none s d cfg = s := rfl

/-- C3 counterexample: a state holding one stale entry, refreshed against
an unreadable path, keeps its non-empty entry list; the visible result is
not empty and the prior entries are not cleared. -/
theorem refresh_unreadable_keeps_stale_entries :
    (update none { exState with entries := [mkEntry exHist exCfg (child "Show1" false)] }
        exHist exCfg).entries
      = ({ exState with entries := [mkEntry exHist exCfg (child "Show1" false)] } : State).entries
    ∧ (update none { exState with entries := [mkEntry exHist exCfg (child "Show1" false)] }
        exHist exCfg).entries ≠ [] := by
  exact ⟨rfl, by decide⟩

/-- C9: through a full key-event step, the Leave command sets the current
path to its parent (the parent of the root being the root itself) and the
selection to 0, and the following refresh keeps both. -/
theorem leave_goes_to_parent (fs : FSys) (cfg : Config) (d : Data) (s : State) :
    (step fs cfg Command.leave (s, d)).1.path = s.path.dropLast
    ∧ (step fs cfg Command.leave (s, d)).1.selected = 0
    ∧ (s.path = [] → (step fs cfg Command.leave (s, d)).1.path = s.path) := by
  refine ⟨?_, ?_, ?_⟩
  · simp [step, input, update_path]
  · simp only [step, input]
    exact update_sel_zero _ _ _ _ rfl
  · intro h
    simp [step, input, update_path, h]

/-- C9 witness: Leave applied at the root path keeps the root path. -/
theorem leave_goes_to_parent_witness :
    (step noFS exCfg Command.leave ({ exState with path := [] }, exHist)).1.path
      = ({ exState with path := [] } : State).path :=
  (leave_goes_to_parent noFS exCfg exHist { exState with path := [] }).2.2 rfl

/-- C7: starting from any refreshed state, toggling show_hidden twice,
with a refresh after each toggle and the filesystem and history unchanged,
restores exactly the same entry list (same set, same order). -/
theorem toggle_hidden_twice_same_entries (fs : FSys) (cfg : Config) (d : Data) (s : State) :
    (step fs cfg Command.toggleHidden
        (step fs cfg Command.toggleHidden (update (fs s.path) s d cfg, d))).1.entries
      = (update (fs s.path) s d cfg).entries := by
  cases h : fs s.path with
  | none =>
    simp [step, input, update_path, h, update_none]
  | some ch =>
    simp [step, input, update_path, update_some_path, h, update_some_entries,
      update_show_hidden, Bool.not_not]

/-- C10 (amended): every state produced by a successful refresh (read_dir
returned a child list) satisfies the in-bounds condition that the index
accesses of the d, e and f handlers need: with a non-empty entry list the
selection is a valid index. -/
theorem refreshed_state_index_safe (ch : List Child) (s : State) (d : Data) (cfg : Config) :
    inputIndexSafe (update (some ch) s d cfg) := by
  intro hne
  exact update_some_sel_bounds ch s d cfg hne

/-- C10 witness: the in-bounds condition holds for the refreshed scenario
state. -/
theorem refreshed_state_index_safe_witness :
    inputIndexSafe (update (some scenCh) exState exHist exCfg) :=
  refreshed_state_index_safe scenCh exState exHist exCfg

/-- C10 counterexample: a state produced by a refresh can violate the
in-bounds condition.  Starting from a state refreshed out of a readable
directory with one visible entry, one MoveUp key event while the directory
has become unreadable ends (after its refresh) in a state with a non-empty
stale entry list and selection -1: the d handler guard passes, and the
index cast of -1 to usize is out of bounds. -/
theorem stale_state_index_unsafe :
    0 < (step noFS exCfg Command.moveUp
        (update (some [child "Show1" false]) exState exHist exCfg, exHist)).1.entries.length
    ∧ (step noFS exCfg Command.moveUp
        (update (some [child "Show1" false]) exState exHist exCfg, exHist)).1.selected = -1
    ∧ ¬ inputIndexSafe (step noFS exCfg Command.moveUp
        (update (some [child "Show1" false]) exState exHist exCfg, exHist)).1 := by
  refine ⟨by decide, by decide, fun h => ?_⟩
  have h2 := h (by decide)
  have h3 : (step noFS exCfg Command.moveUp
      (update (some [child "Show1" false]) exState exHist exCfg, exHist)).1.selected = -1 := by
    decide
  rw [h3] at h2
  omega

/-- C1 (amended): for every starting state and every non-empty sequence of
MoveUp/MoveDown commands, each followed by its refresh, as long as the
directory read of the final refresh succeeds: if the resulting entry list
is non-empty of length N the selection lies in [0, N); if the resulting
entry list is empty the re-clamp leaves the selection unchanged (it is not
forced to 0). -/
theorem clamp_invariant_after_moves (fs : FSys) (cfg : Config) (d : Data) (s : State)
    (ch : List Child) (cmds : List Command)
    (hmv : ∀ c ∈ cmds, c = Command.moveUp ∨ c = Command.moveDown)
    (hne : cmds ≠ []) (hfs : fs s.path = some ch) :
    (0 < (runCmds fs cfg cmds (s, d)).1.entries.length →
      0 ≤ (runCmds fs cfg cmds (s, d)).1.selected ∧
        (runCmds fs cfg cmds (s, d)).1.selected
          < ((runCmds fs cfg cmds (s, d)).1.entries.length : Int))
    ∧ (∀ (s2 : State) (d2 : Data), (update (some ch) s2 d2 cfg).entries = [] →
        (update (some ch) s2 d2 cfg).selected = s2.selected) := by
  constructor
  · intro hpos
    rcases List.eq_nil_or_concat cmds with h | ⟨pre, c, hsplit⟩
    · exact absurd h hne
    · rw [List.concat_eq_append] at hsplit
      subst hsplit
      have hpre : ∀ x ∈ pre, x = Command.moveUp ∨ x = Command.moveDown := fun x hx =>
        hmv x (List.mem_append_left _ hx)
      have hc : c = Command.moveUp ∨ c = Command.moveDown :=
        hmv c (List.mem_append_right _ (List.mem_singleton_self c))
      have hrun : runCmds fs cfg (pre ++ [c]) (s, d)
          = step fs cfg c (runCmds fs cfg pre (s, d)) := by
        simp [runCmds, List.foldl_append]
      have hpath : (runCmds fs cfg pre (s, d)).1.path = s.path :=
        runCmds_move_path fs cfg pre (s, d) hpre
      set sd1 := runCmds fs cfg pre (s, d) with hsd1
      have hinpath : ∀ c2 : Command, (c2 = Command.moveUp ∨ c2 = Command.moveDown) →
          (input fs c2 sd1.1 cfg sd1.2).1.path = sd1.1.path := by
        rintro c2 (h2 | h2) <;> subst h2 <;> rfl
      rcases hc with h2 | h2 <;> subst h2
      · rw [hrun] at hpos ⊢
        have hfs2 : fs (input fs Command.moveUp sd1.1 cfg sd1.2).1.path = some ch := by
          rw [hinpath Command.moveUp (Or.inl rfl), hpath, hfs]
        simp only [step, hfs2] at hpos ⊢
        exact update_some_sel_bounds ch _ _ cfg hpos
      · rw [hrun] at hpos ⊢
        have hfs2 : fs (input fs Command.moveDown sd1.1 cfg sd1.2).1.path = some ch := by
          rw [hinpath Command.moveDown (Or.inr rfl), hpath, hfs]
        simp only [step, hfs2] at hpos ⊢
        exact update_some_sel_bounds ch _ _ cfg hpos
  · intro s2 d2 hz
    exact update_some_sel_empty ch s2 d2 cfg (by rw [hz]; rfl)

/-- C1 witness: two moves over the scenario directory end with the
selection in bounds, and the empty re-clamp conjunct holds there too. -/
theorem clamp_invariant_after_moves_witness :
    (0 < (runCmds (exFS scenCh) exCfg [Command.moveUp, Command.moveDown]
        (exState, exHist)).1.entries.length →
      0 ≤ (runCmds (exFS scenCh) exCfg [Command.moveUp, Command.moveDown]
          (exState, exHist)).1.selected ∧
        (runCmds (exFS scenCh) exCfg [Command.moveUp, Command.moveDown]
            (exState, exHist)).1.selected
          < ((runCmds (exFS scenCh) exCfg [Command.moveUp, Command.moveDown]
              (exState, exHist)).1.entries.length : Int))
    ∧ (∀ (s2 : State) (d2 : Data), (update (some scenCh) s2 d2 exCfg).entries = [] →
        (update (some scenCh) s2 d2 exCfg).selected = s2.selected) :=
  clamp_invariant_after_moves (exFS scenCh) exCfg exHist exState scenCh
    [Command.moveUp, Command.moveDown] (by decide) (by decide) (by decide)

/-- C1 counterexample: with a readable but empty directory, a MoveUp from
selection 0 ends the refresh with an empty entry list and selection -1,
not the selection 0 the claim demands for empty lists. -/
theorem empty_list_selection_not_reset :
    (runCmds (exFS []) exCfg [Command.moveUp] (exState, exHist)).1.entries = []
    ∧ (runCmds (exFS []) exCfg [Command.moveUp] (exState, exHist)).1.selected = -1
    ∧ ¬ ((runCmds (exFS []) exCfg [Command.moveUp] (exState, exHist)).1.entries = [] →
        (runCmds (exFS []) exCfg [Command.moveUp] (exState, exHist)).1.selected = 0) := by
  exact ⟨by decide, by decide, fun h => absurd (h (by decide)) (by decide)⟩

/-- C4: a directory child appears in the refreshed entry list exactly when
show_hidden is on, or else when its name does not start with a dot, is not
the reserved system name, and it is a directory or its name ends with one
of the configured filter suffixes (exact, case-sensitive match).
Directories are never excluded by the extension filter. -/
theorem filter_policy (hdn : Bool) (cfg : Config) (d : Data) (ch : List Child) (c : Child)
    (hc : c ∈ ch) :
    mkEntry d cfg c ∈ refreshEntries ch hdn d cfg ↔
      (hdn = true ∨
        (isLeadOf (str ".") c.name = false ∧ c.name ≠ sviName ∧
          (c.is_file = false ∨ ∃ t ∈ cfg.filetypes, isTailOf t c.name = true))) := by
  have hmem : mkEntry d cfg c ∈ refreshEntries ch hdn d cfg ↔
      mkEntry d cfg c ∈ (ch.map (mkEntry d cfg)).filter (keepEntry hdn cfg) := by
    unfold refreshEntries sortEntries
    exact List.mem_insertionSort entryRel
  rw [hmem, List.mem_filter]
  have hmap : mkEntry d cfg c ∈ ch.map (mkEntry d cfg) := List.mem_map_of_mem _ hc
  simp only [hmap, true_and]
  simp only [keepEntry, mkEntry, Bool.or_eq_true, Bool.and_eq_true, Bool.not_eq_true',
    List.any_eq_true, decide_eq_true_iff, decide_eq_false_iff_not, Bool.not_eq_true]
  tauto

/-- C4 witness: in the scenario directory, the movie file is visible while
show_hidden is off because its name ends in the configured suffix. -/
theorem filter_policy_witness :
    mkEntry exHist exCfg (child "movie.mkv" true) ∈ refreshEntries scenCh false exHist exCfg := by
  refine (filter_policy false exCfg exHist scenCh (child "movie.mkv" true) (by decide)).2 ?_
  refine Or.inr ⟨by decide, by decide, Or.inr ⟨str ".mkv", by decide, by decide⟩⟩

/-- C5 (amended): after every refresh the entry list is sorted by the
stored entry name compared case-insensitively, with ties broken by the
original enumeration order (a stable sort); on the specification example
the visible display names come out as A then b. -/
theorem entries_sorted_stable (ch : List Child) (hdn : Bool) (d : Data) (cfg : Config) :
    (refreshEntries ch hdn d cfg).Pairwise entryRel
    ∧ (∀ k : List Char,
        (refreshEntries ch hdn d cfg).filter (fun e => decide (lower e.name = k))
          = ((ch.map (mkEntry d cfg)).filter (keepEntry hdn cfg)).filter
              (fun e => decide (lower e.name = k)))
    ∧ (refreshEntries sortCh false exHist exCfg).map (fun e => displayName false exCfg e.name)
        = [str "A", str "b"] := by
  refine ⟨?_, ?_, by decide⟩
  · unfold refreshEntries sortEntries
    exact List.sorted_insertionSort entryRel _
  · intro k
    unfold refreshEntries
    apply sortEntries_filter_stable
    intro a b ha hb
    have ha2 : lower a.name = k := by simpa using ha
    have hb2 : lower b.name = k := by simpa using hb
    unfold entryRel entryLe
    rw [ha2, hb2]
    exact lexLe_refl k

/-- C5 counterexample: the code sorts by the stored name, not by the
rendered display name.  Two directories named a.mkvz and ay are listed in
that order (a.mkvz before ay), but their display names az and ay are in
the opposite case-insensitive order, so the refreshed list is not sorted
by display name. -/
theorem entries_not_sorted_by_display_name :
    ¬ (refreshEntries flipCh false exHist exCfg).Pairwise
        (fun a b => lexLe (lower (displayName false exCfg a.name))
          (lower (displayName false exCfg b.name)) = true) := by
  decide

/-- C6: the three history operations use one shared key normalization (the
entry path made relative to the configured media root when it lies under
that root, else taken verbatim), and membership agrees with mutation:
adding an entry makes contains true, removing it makes contains false. -/
theorem history_round_trip (d : Data) (cfg : Config) (e : Entry) :
    hist_contains (hist_add d cfg e) cfg e = true
    ∧ hist_contains (hist_remove d cfg e) cfg e = false
    ∧ (∀ rest : List (List Char), e.path = cfg.media_dir ++ rest →
        normKey cfg e.path = rest)
    ∧ ((∀ rest, e.path ≠ cfg.media_dir ++ rest) → normKey cfg e.path = e.path) := by
  refine ⟨?_, ?_, ?_, ?_⟩
  · simp [hist_contains, hist_add]
  · simp [hist_contains, hist_remove]
  · intro rest hrest
    rw [hrest]
    unfold normKey
    rw [if_pos (isLeadOf_append cfg.media_dir rest)]
    exact List.drop_left _ _
  · intro hno
    unfold normKey
    rw [if_neg]
    intro hlead
    obtain ⟨t, ht⟩ := exists_of_isLeadOf cfg.media_dir e.path hlead
    exact hno t ht

/-- C6 witness: a concrete round trip for the movie entry, whose path lies
under the media root and is normalized to the relative remainder. -/
theorem history_round_trip_witness :
    hist_contains (hist_add exHist exCfg (mkEntry exHist exCfg (child "movie.mkv" true)))
        exCfg (mkEntry exHist exCfg (child "movie.mkv" true)) = true
    ∧ hist_contains (hist_remove exHist exCfg (mkEntry exHist exCfg (child "movie.mkv" true)))
        exCfg (mkEntry exHist exCfg (child "movie.mkv" true)) = false
    ∧ normKey exCfg (mkEntry exHist exCfg (child "movie.mkv" true)).path
        = [str "movie.mkv"] := by
  have h := history_round_trip exHist exCfg (mkEntry exHist exCfg (child "movie.mkv" true))
  exact ⟨h.1, h.2.1, h.2.2.1 [str "movie.mkv"] (by decide)⟩

/-- C8: suffix stripping happens only in the renderer.  Every refreshed
entry stores the path and name of its directory child unmodified, and the
Activate handler, fired on an in-bounds file selection, spawns the player
on that stored path (extension intact) and records exactly that path
(normalized) as watched; the state itself is unchanged by the handler. -/
theorem activate_uses_real_path (d : Data) (cfg : Config) :
    (∀ (ch : List Child) (hdn : Bool) (e : Entry), e ∈ refreshEntries ch hdn d cfg →
      ∃ c, c ∈ ch ∧ e.path = c.path ∧ e.name = c.name)
    ∧ (∀ (fs : FSys) (s : State) (e : Entry),
        selEnt s = e → 0 ≤ s.selected → s.selected < (s.entries.length : Int) →
        0 < s.entries.length → e.is_file = true →
        input fs Command.activate s cfg d
            = (s, hist_add d cfg e, some { player := cfg.player, arg := e.path })
          ∧ (hist_add d cfg e).history = insert (normKey cfg e.path) d.history) := by
  constructor
  · intro ch hdn e he
    have he2 : e ∈ (ch.map (mkEntry d cfg)).filter (keepEntry hdn cfg) := by
      unfold refreshEntries sortEntries at he
      exact (List.mem_insertionSort entryRel).mp he
    have he3 : e ∈ ch.map (mkEntry d cfg) := (List.mem_filter.mp he2).1
    obtain ⟨c, hcch, hce⟩ := List.mem_map.mp he3
    exact ⟨c, hcch, by rw [← hce]; rfl, by rw [← hce]; rfl⟩
  · intro fs s e hsel h0 hlt hlen hfile
    constructor
    · rw [show input fs Command.activate s cfg d
          = if 0 < s.entries.length ∧ s.selected < (s.entries.length : Int)
              ∧ (selEnt s).is_file = true then
              (s, hist_add d cfg (selEnt s), some { player := cfg.player, arg := (selEnt s).path })
            else (s, d, none) from rfl]
      rw [if_pos ⟨hlen, hlt, by rw [hsel]; exact hfile⟩, hsel]
    · rfl

/-- C8 witness: in the scenario directory with the selection on the movie
file, Activate spawns the player on the real path media/movie.mkv with the
.mkv extension intact, and records the normalized key movie.mkv. -/
theorem activate_uses_real_path_witness :
    input noFS Command.activate
        (update (some scenCh) exState exHist exCfg) exCfg exHist
      = (update (some scenCh) exState exHist exCfg,
         hist_add exHist exCfg (mkEntry exHist exCfg (child "movie.mkv" true)),
         some { player := str "mpv", arg := [str "media", str "movie.mkv"] })
    ∧ (hist_add exHist exCfg (mkEntry exHist exCfg (child "movie.mkv" true))).history
      = insert (normKey exCfg [str "media", str "movie.mkv"]) exHist.history := by
  have h := (activate_uses_real_path exHist exCfg).2 noFS
    (update (some scenCh) exState exHist exCfg)
    (mkEntry exHist exCfg (child "movie.mkv" true))
    (by decide) (by decide) (by decide) (by decide) (by decide)
  exact ⟨h.1, h.2⟩

end Mlib
